import Mathlib

/-
  Verification of the coastline segmentation engine (`CoastlineSegmenter` in
  the repository's segmentation script) against its specification.

  The engine's own control flow (the per-way loop, the split loop, the
  nearest-vertex scans in `extractSegmentCoordinates`, the id counter, the
  final minimum-length filter) is translated directly from the source.
  The geometric primitives it calls (geodesic distance, polyline length,
  point-at-distance interpolation, Douglas–Peucker simplification) live in a
  third-party geometry library, not in this repository; they are modelled
  from the specification's §4.1–§4.2 contracts.  Geodesic distance is kept
  abstract as a parameter `d` constrained by the consistency properties the
  spec demands (zero on identical points, non-negative, separating);
  `flatDist` below is a concrete instance used to evaluate witnesses.

  Coordinates are pairs of rationals; all arithmetic is exact.
-/

namespace Coast

/-- A longitude/latitude pair, as in the source's `number[]` coordinates. -/
abbrev Point : Type := ℚ × ℚ

/-- Structure `SegmentationConfig` from the source: max/min segment length in meters,
simplification tolerance in degrees. -/
structure SegmentationConfig where
  maxSegmentLength : ℚ
  minSegmentLength : ℚ
  simplificationTolerance : ℚ
deriving DecidableEq

/-- The geometry attached to an input feature: either a line string with its
coordinate list, or some other geometry kind (skipped by the segmenter). -/
inductive OSMGeometry where
  | lineString (coordinates : List Point)
  | other
deriving DecidableEq

/-- An input feature of `OSMCoastlineData`: an optional geometry and the
source way id carried in `properties.id`. -/
structure OSMFeature where
  geometry : Option OSMGeometry
  propertiesId : Int
deriving DecidableEq

/-- Structure `CoastlineSegment` from the source. -/
structure CoastlineSegment where
  id : String
  geometry : List Point
  lengthMeters : ℚ
  originalWayId : Int
deriving DecidableEq

/-- Modelled from the spec: `lengthOf(polyline)` — the sum of geodesic
distance `d` over consecutive vertex pairs (the source calls `turf.length`).
Zero for an empty or single-point line. -/
def lengthOf (d : Point → Point → ℚ) : List Point → ℚ
  | [] => 0
  | [_] => 0
  | p :: q :: rest => d p q + lengthOf d (q :: rest)

/-- Modelled from the spec: linear interpolation between bracketing vertices
in lon/lat space, parameter `t ∈ [0,1]`. -/
def interp (p q : Point) (t : ℚ) : Point :=
  (p.1 + t * (q.1 - p.1), p.2 + t * (q.2 - p.2))

/-- Modelled from the spec: the walking core of `pointAtDistance` — consume
edges while the remaining distance exceeds the edge length, interpolate on
the bracketing edge, and clamp to the last vertex when the line runs out. -/
def walkAlong (d : Point → Point → ℚ) : Point → List Point → ℚ → Point
  | p, [], _ => p
  | p, q :: rest, dist =>
    let e := d p q
    if dist ≤ e then
      if e = 0 then q else interp p q (dist / e)
    else
      walkAlong d q rest (dist - e)

/-- Modelled from the spec: `pointAtDistance(polyline, distanceMeters)` (the
source calls `turf.along`): clamps to the first vertex for `dist ≤ 0`, walks
the cumulative arc length otherwise. -/
def pointAtDistance (d : Point → Point → ℚ) (coords : List Point) (dist : ℚ) : Point :=
  match coords with
  | [] => (0, 0)
  | p :: rest => if dist ≤ 0 then p else walkAlong d p rest dist

/-- Modelled from the spec: squared distance from `p` to the segment `[a,b]`
in lon/lat space, the perpendicular-deviation measure used by the
Douglas–Peucker simplifier. -/
def sqSegDist (p a b : Point) : ℚ :=
  let dx := b.1 - a.1
  let dy := b.2 - a.2
  if dx = 0 ∧ dy = 0 then
    (p.1 - a.1) ^ 2 + (p.2 - a.2) ^ 2
  else
    let t := max 0 (min 1 (((p.1 - a.1) * dx + (p.2 - a.2) * dy) / (dx ^ 2 + dy ^ 2)))
    (p.1 - (a.1 + t * dx)) ^ 2 + (p.2 - (a.2 + t * dy)) ^ 2

/-- Index (relative, first occurrence) and value of the maximal deviation of
the interior points from the chord `[a,b]`; `none` on an empty interior.
Mirrors the simplifier's scan that updates on a strict `>`, so the first
maximum wins. -/
def argmaxDev (a b : Point) : List Point → Option (Nat × ℚ)
  | [] => none
  | p :: rest =>
    let dp := sqSegDist p a b
    match argmaxDev a b rest with
    | none => some (0, dp)
    | some (j, m) => if m ≤ dp then some (0, dp) else some (j + 1, m)

/-- Modelled from the spec: recursive Douglas–Peucker on an interior list
`mid` between fixed endpoints `a`, `b`.  Keeps `a` and `b`; if the maximal
interior deviation is within the (squared) tolerance the interior is dropped,
otherwise it splits at the deviating vertex and recurses on both halves.
`fuel` bounds the recursion depth; callers pass `fuel ≥ mid.length`, which
the strictly shrinking interiors never exhaust, so the `0` case is dead. -/
def dpAux (tol : ℚ) : Nat → Point → List Point → Point → List Point
  | 0, a, _, b => [a, b]
  | fuel + 1, a, mid, b =>
    match argmaxDev a b mid with
    | none => [a, b]
    | some (k, m) =>
      if m ≤ tol * tol then [a, b]
      else
        let pk := (mid[k]?).getD a
        dpAux tol fuel a (mid.take k) pk ++ (dpAux tol fuel pk (mid.drop (k + 1)) b).tail

/-- Modelled from the spec: `simplify(polyline, tolerance)` — Douglas–Peucker
simplification preserving both endpoints (the source calls `turf.simplify`
with `highQuality: true`). -/
def simplify (tol : ℚ) (pts : List Point) : List Point :=
  match pts with
  | [] => []
  | [p] => [p]
  | a :: rest =>
    match rest.getLast? with
    | none => [a]
    | some b => dpAux tol rest.length a rest.dropLast b

/-- Left-to-right scan for the first index minimizing `d t ·`, as in the
`for` loops of `extractSegmentCoordinates`: the running minimum is replaced
only on a strictly smaller distance, so ties keep the lowest index.  Returns
the (relative) index together with the minimal distance. -/
def scanFrom (d : Point → Point → ℚ) (t : Point) : List Point → Option (Nat × ℚ)
  | [] => none
  | p :: rest =>
    let dp := d t p
    match scanFrom d t rest with
    | none => some (0, dp)
    | some (j, m) => if dp ≤ m then some (0, dp) else some (j + 1, m)

/-- First scan of `extractSegmentCoordinates`: nearest vertex to the start
coordinate over the whole list; `startIndex` stays `0` if the loop body never
runs. -/
def findStartIndex (d : Point → Point → ℚ) (coords : List Point) (startCoord : Point) : Nat :=
  match scanFrom d startCoord coords with
  | none => 0
  | some (j, _) => j

/-- Second scan of `extractSegmentCoordinates`: nearest vertex to the end
coordinate scanning from `startIndex` on; `endIndex` stays `length - 1` if
the loop body never runs. -/
def findEndIndex (d : Point → Point → ℚ) (coords : List Point) (endCoord : Point)
    (startIndex : Nat) : Nat :=
  match scanFrom d endCoord (coords.drop startIndex) with
  | none => coords.length - 1
  | some (j, _) => startIndex + j

/-- Function `extractSegmentCoordinates` from the source: locate the nearest vertices
to the start and end coordinates (the second scan starting at the first's
index), copy the inclusive vertex sub-range when `startIndex ≤ endIndex`, and
return the whole coordinate list when the collected range has fewer than two
points. -/
def extractSegmentCoordinates (d : Point → Point → ℚ) (coords : List Point)
    (startCoord endCoord : Point) : List Point :=
  let startIndex := findStartIndex d coords startCoord
  let endIndex := findEndIndex d coords endCoord startIndex
  let result := if startIndex ≤ endIndex then (coords.drop startIndex).take (endIndex - startIndex + 1) else []
  if 2 ≤ result.length then result else coords

/-- From the source: `numSegments = Math.ceil(totalLength / config.maxSegmentLength)`. -/
def numSegments (total maxLen : ℚ) : Nat := (⌈total / maxLen⌉).toNat

/-- From the source: `segmentLength = totalLength / numSegments`. -/
def segmentLength (total maxLen : ℚ) : ℚ := total / (numSegments total maxLen : ℚ)

/-- From the source: `startDistance = i * segmentLength`. -/
def startDistance (total maxLen : ℚ) (i : Nat) : ℚ := (i : ℚ) * segmentLength total maxLen

/-- From the source: `endDistance = Math.min((i + 1) * segmentLength, totalLength)`. -/
def endDistance (total maxLen : ℚ) (i : Nat) : ℚ :=
  min (((i : ℚ) + 1) * segmentLength total maxLen) total

/-- The body of one iteration of the split loop: interpolate the two cut
points, extract the vertex sub-range, and measure its length. -/
def subSegment (d : Point → Point → ℚ) (cfg : SegmentationConfig)
    (coords : List Point) (total : ℚ) (i : Nat) : List Point × ℚ :=
  let startPoint := pointAtDistance d coords (startDistance total cfg.maxSegmentLength i)
  let endPoint := pointAtDistance d coords (endDistance total cfg.maxSegmentLength i)
  let segmentCoords := extractSegmentCoordinates d coords startPoint endPoint
  (segmentCoords, lengthOf d segmentCoords)

/-- The split loop of `segmentCoastlines` for a long way: for each
`i < numSegments` the extracted sub-segment is pushed when it has at least
two coordinates (the `try`/`catch` around the body is dead in this model:
none of the embedded operations is partial). -/
def splitLong (d : Point → Point → ℚ) (cfg : SegmentationConfig)
    (coords : List Point) (total : ℚ) : List (List Point × ℚ) :=
  (List.range (numSegments total cfg.maxSegmentLength)).filterMap fun i =>
    let s := subSegment d cfg coords total i
    if 2 ≤ s.1.length then some s else none

/-- Sequential id assignment: each pushed segment takes
`segment_<counter>` and bumps the counter, exactly as `segmentCounter++`
does at every `segments.push`. -/
def assignIds (wayId : Int) : Nat → List (List Point × ℚ) → List CoastlineSegment
  | _, [] => []
  | c, (coords, len) :: rest =>
    ⟨"segment_" ++ toString c, coords, len, wayId⟩ :: assignIds wayId (c + 1) rest

/-- One iteration of the per-feature loop of `segmentCoastlines`: skip
non-line geometries, simplify, measure, then apply the short / long / normal
decision.  Returns the updated counter and the segments pushed for this
feature. -/
def processWay (d : Point → Point → ℚ) (cfg : SegmentationConfig) (c : Nat)
    (f : OSMFeature) : Nat × List CoastlineSegment :=
  match f.geometry with
  | some (OSMGeometry.lineString coords) =>
    let simplified := simplify cfg.simplificationTolerance coords
    let totalLength := lengthOf d simplified
    if totalLength < cfg.minSegmentLength then
      (c + 1, [⟨"segment_" ++ toString c, simplified, totalLength, f.propertiesId⟩])
    else if cfg.maxSegmentLength < totalLength then
      let subs := splitLong d cfg simplified totalLength
      (c + subs.length, assignIds f.propertiesId c subs)
    else
      (c + 1, [⟨"segment_" ++ toString c, simplified, totalLength, f.propertiesId⟩])
  | _ => (c, [])

/-- The `segments` array accumulated over all features, threading the id
counter. -/
def segmentsBeforeFilter (d : Point → Point → ℚ) (cfg : SegmentationConfig) :
    Nat → List OSMFeature → List CoastlineSegment
  | _, [] => []
  | c, f :: fs =>
    let r := processWay d cfg c f
    r.2 ++ segmentsBeforeFilter d cfg r.1 fs

/-- Function `segmentCoastlines`: accumulate all segments, then filter once by the
minimum length. -/
def segmentCoastlines (d : Point → Point → ℚ) (features : List OSMFeature)
    (cfg : SegmentationConfig) : List CoastlineSegment :=
  (segmentsBeforeFilter d cfg 0 features).filter fun s =>
    cfg.minSegmentLength ≤ s.lengthMeters

/-- Modelled from the spec: a concrete distance function standing in for the
library's geodesic distance in witnesses.  It satisfies every consistency
property the spec requires of `geodesicDistance` (symmetric, zero exactly on
identical points, triangle inequality). -/
def flatDist (p q : Point) : ℚ := |p.1 - q.1| + |p.2 - q.2|

theorem flatDist_self (p : Point) : flatDist p p = 0 := by
  simp [flatDist]

theorem flatDist_nonneg (p q : Point) : 0 ≤ flatDist p q := by
  have h1 : (0:ℚ) ≤ |p.1 - q.1| := abs_nonneg _
  have h2 : (0:ℚ) ≤ |p.2 - q.2| := abs_nonneg _
  simpa [flatDist] using add_nonneg h1 h2

theorem flatDist_eq_zero {p q : Point} (h : flatDist p q = 0) : p = q := by
  unfold flatDist at h
  have h1 : (0:ℚ) ≤ |p.1 - q.1| := abs_nonneg _
  have h2 : (0:ℚ) ≤ |p.2 - q.2| := abs_nonneg _
  have ha : |p.1 - q.1| = 0 := by linarith
  have hb : |p.2 - q.2| = 0 := by linarith
  have ha' : p.1 = q.1 := by
    have := abs_eq_zero.mp ha
    linarith
  have hb' : p.2 = q.2 := by
    have := abs_eq_zero.mp hb
    linarith
  exact Prod.ext ha' hb'

/-! ### Properties of the nearest-vertex scan -/

theorem scanFrom_eq_none_iff (d : Point → Point → ℚ) (t : Point) (l : List Point) :
    scanFrom d t l = none ↔ l = [] := by
  cases l with
  | nil => simp [scanFrom]
  | cons p rest =>
    simp only [scanFrom]
    cases h : scanFrom d t rest with
    | none => simp
    | some jm =>
      obtain ⟨j, m⟩ := jm
      by_cases hle : d t p ≤ m <;> simp [hle]

/-- Full characterization of the left-to-right minimum scan: the returned
index points at an element realizing the returned distance, the distance is
minimal over the whole list, and every earlier element is strictly farther
(ties keep the lowest index). -/
theorem scanFrom_spec (d : Point → Point → ℚ) (t : Point) (l : List Point)
    (j : Nat) (m : ℚ) (h : scanFrom d t l = some (j, m)) :
    (∃ p, l[j]? = some p ∧ m = d t p) ∧
      (∀ (k : Nat) (p : Point), l[k]? = some p → m ≤ d t p) ∧
      (∀ (k : Nat) (p : Point), k < j → l[k]? = some p → m < d t p) := by
  induction l generalizing j m with
  | nil => simp [scanFrom] at h
  | cons q rest ih =>
    simp only [scanFrom] at h
    cases hrest : scanFrom d t rest with
    | none =>
      rw [hrest] at h
      have hre : rest = [] := (scanFrom_eq_none_iff d t rest).mp hrest
      simp only [Option.some.injEq, Prod.mk.injEq] at h
      obtain ⟨hj, hm⟩ := h
      subst hj; subst hm; subst hre
      refine ⟨⟨q, by simp, rfl⟩, ?_, ?_⟩
      · intro k p hk
        cases k with
        | zero => simp at hk; subst hk; exact le_refl _
        | succ k => simp at hk
      · intro k p hk; omega
    | some jm =>
      obtain ⟨j', m'⟩ := jm
      rw [hrest] at h
      obtain ⟨⟨p', hp', hm'⟩, hmin, hfirst⟩ := ih j' m' hrest
      by_cases hle : d t q ≤ m'
      · simp only [hle, if_true] at h
        simp only [Option.some.injEq, Prod.mk.injEq] at h
        obtain ⟨hj, hm⟩ := h
        subst hj; subst hm
        refine ⟨⟨q, by simp, rfl⟩, ?_, ?_⟩
        · intro k p hk
          cases k with
          | zero => simp at hk; subst hk; exact le_refl _
          | succ k =>
            simp only [List.getElem?_cons_succ] at hk
            exact le_trans hle (hmin k p hk)
        · intro k p hk; omega
      · simp only [hle, if_false] at h
        simp only [Option.some.injEq, Prod.mk.injEq] at h
        obtain ⟨hj, hm⟩ := h
        subst hj; subst hm
        refine ⟨⟨p', by simpa using hp', hm'⟩, ?_, ?_⟩
        · intro k p hk
          cases k with
          | zero => simp at hk; subst hk; exact le_of_lt (lt_of_not_le hle)
          | succ k =>
            simp only [List.getElem?_cons_succ] at hk
            exact hmin k p hk
        · intro k p hkj hk
          cases k with
          | zero => simp at hk; subst hk; exact lt_of_not_le hle
          | succ k =>
            simp only [List.getElem?_cons_succ] at hk
            exact hfirst k p (by omega) hk

theorem scanFrom_isSome (d : Point → Point → ℚ) (t : Point) (l : List Point)
    (h : l ≠ []) : ∃ j m, scanFrom d t l = some (j, m) := by
  cases hs : scanFrom d t l with
  | none => exact absurd ((scanFrom_eq_none_iff d t l).mp hs) h
  | some jm =>
    obtain ⟨j, m⟩ := jm
    exact ⟨j, m, rfl⟩

theorem scanFrom_idx_lt (d : Point → Point → ℚ) (t : Point) (l : List Point)
    (j : Nat) (m : ℚ) (h : scanFrom d t l = some (j, m)) : j < l.length := by
  obtain ⟨⟨p, hp, _⟩, _, _⟩ := scanFrom_spec d t l j m h
  obtain ⟨hlt, -⟩ := List.getElem?_eq_some.mp hp
  exact hlt

theorem findStartIndex_eq (d : Point → Point → ℚ) (coords : List Point)
    (sc : Point) (j : Nat) (m : ℚ) (h : scanFrom d sc coords = some (j, m)) :
    findStartIndex d coords sc = j := by
  unfold findStartIndex
  rw [h]

theorem findEndIndex_eq (d : Point → Point → ℚ) (coords : List Point)
    (t : Point) (s j : Nat) (m : ℚ)
    (h : scanFrom d t (coords.drop s) = some (j, m)) :
    findEndIndex d coords t s = s + j := by
  unfold findEndIndex
  rw [h]

theorem drop_ne_nil_of_lt (coords : List Point) (s : Nat) (hs : s < coords.length) :
    coords.drop s ≠ [] := by
  intro hc
  have := List.drop_eq_nil_iff.mp hc
  omega

theorem findStartIndex_lt_length (d : Point → Point → ℚ) (coords : List Point)
    (sc : Point) (h : coords ≠ []) : findStartIndex d coords sc < coords.length := by
  obtain ⟨j, m, hs⟩ := scanFrom_isSome d sc coords h
  rw [findStartIndex_eq d coords sc j m hs]
  exact scanFrom_idx_lt d sc coords j m hs

theorem findEndIndex_ge (d : Point → Point → ℚ) (coords : List Point) (t : Point)
    (s : Nat) (hs : s < coords.length) : s ≤ findEndIndex d coords t s := by
  obtain ⟨j, m, hsc⟩ := scanFrom_isSome d t _ (drop_ne_nil_of_lt coords s hs)
  rw [findEndIndex_eq d coords t s j m hsc]
  omega

theorem findEndIndex_lt_length (d : Point → Point → ℚ) (coords : List Point)
    (t : Point) (s : Nat) (hs : s < coords.length) :
    findEndIndex d coords t s < coords.length := by
  obtain ⟨j, m, hsc⟩ := scanFrom_isSome d t _ (drop_ne_nil_of_lt coords s hs)
  have hj : j < (coords.drop s).length := scanFrom_idx_lt d t _ j m hsc
  rw [List.length_drop] at hj
  rw [findEndIndex_eq d coords t s j m hsc]
  omega

/-- The second scan minimizes the distance over the tail indices `k ≥ s`,
breaking ties by the lowest index. -/
theorem findEndIndex_min (d : Point → Point → ℚ) (coords : List Point) (t : Point)
    (s : Nat) (hs : s < coords.length) :
    ∃ pe, coords[findEndIndex d coords t s]? = some pe ∧
      (∀ (k : Nat) (p : Point), s ≤ k → coords[k]? = some p → d t pe ≤ d t p) ∧
      (∀ (k : Nat) (p : Point), s ≤ k → k < findEndIndex d coords t s →
        coords[k]? = some p → d t pe < d t p) := by
  obtain ⟨j, m, hsc⟩ := scanFrom_isSome d t _ (drop_ne_nil_of_lt coords s hs)
  obtain ⟨⟨pe, hpe, hm⟩, hmin, hfirst⟩ := scanFrom_spec d t _ j m hsc
  have he : findEndIndex d coords t s = s + j := findEndIndex_eq d coords t s j m hsc
  rw [List.getElem?_drop] at hpe
  refine ⟨pe, by rw [he]; exact hpe, ?_, ?_⟩
  · intro k p hk hkp
    have hk2 : (coords.drop s)[k - s]? = some p := by
      rw [List.getElem?_drop]
      have hadd : s + (k - s) = k := by omega
      rw [hadd]; exact hkp
    have := hmin (k - s) p hk2
    rwa [hm] at this
  · intro k p hk hke hkp
    have hk2 : (coords.drop s)[k - s]? = some p := by
      rw [List.getElem?_drop]
      have hadd : s + (k - s) = k := by omega
      rw [hadd]; exact hkp
    rw [he] at hke
    have := hfirst (k - s) p (by omega) hk2
    rwa [hm] at this

/-- Scanning for the head of the list from position 0 returns index 0, given
that the distance function is zero on identical points and non-negative. -/
theorem findStartIndex_self (d : Point → Point → ℚ) (hd0 : ∀ p, d p p = 0)
    (hnn : ∀ p q, 0 ≤ d p q) (p : Point) (rest : List Point) :
    findStartIndex d (p :: rest) p = 0 := by
  obtain ⟨j, m, hs⟩ := scanFrom_isSome d p (p :: rest) (by simp)
  obtain ⟨⟨pe, hpe, hm⟩, hmin, hfirst⟩ := scanFrom_spec d p (p :: rest) j m hs
  have hm0 : m ≤ 0 := by
    have := hmin 0 p (by simp)
    rwa [hd0] at this
  have h0m : 0 ≤ m := hm ▸ hnn p pe
  rw [findStartIndex_eq d (p :: rest) p j m hs]
  by_contra hj
  have hlt := hfirst 0 p (by omega) (by simp)
  rw [hd0] at hlt
  linarith

/-- When the scanned-for point is the value of the last vertex, the vertex
found by the second scan carries exactly that value (the minimum distance is
zero and the distance function separates points). -/
theorem findEndIndex_getLast (d : Point → Point → ℚ) (hd0 : ∀ p, d p p = 0)
    (hnn : ∀ p q, 0 ≤ d p q) (hsep : ∀ p q, d p q = 0 → p = q)
    (coords : List Point) (ec : Point) (s : Nat) (hs : s < coords.length)
    (hec : coords.getLast? = some ec) :
    coords[findEndIndex d coords ec s]? = some ec := by
  obtain ⟨pe, hpe, hmin, -⟩ := findEndIndex_min d coords ec s hs
  have hlast : coords[coords.length - 1]? = some ec := by
    rw [← List.getLast?_eq_getElem?]; exact hec
  have h1 : d ec pe ≤ d ec ec := hmin (coords.length - 1) ec (by omega) hlast
  rw [hd0] at h1
  have h2 : 0 ≤ d ec pe := hnn ec pe
  have h3 : d ec pe = 0 := le_antisymm h1 h2
  have h4 : pe = ec := (hsep ec pe h3).symm
  rwa [h4] at hpe

/-! ### Properties of `extractSegmentCoordinates` -/

theorem extract_two_le (d : Point → Point → ℚ) (coords : List Point)
    (sc ec : Point) (hlen : 2 ≤ coords.length) :
    2 ≤ (extractSegmentCoordinates d coords sc ec).length := by
  simp only [extractSegmentCoordinates]
  split_ifs with hse hr hr2 <;> assumption

/-- If the selected vertex sub-range is degenerate (fewer than two points),
`extractSegmentCoordinates` returns the whole coordinate list. -/
theorem extract_degenerate (d : Point → Point → ℚ) (coords : List Point)
    (sc ec : Point)
    (hdeg : findEndIndex d coords ec (findStartIndex d coords sc)
      - findStartIndex d coords sc + 1 < 2) :
    extractSegmentCoordinates d coords sc ec = coords := by
  simp only [extractSegmentCoordinates]
  split_ifs with h1 h2 h3 <;> try rfl
  · exfalso
    rw [List.length_take, List.length_drop] at h2
    omega
  · exfalso
    simp at h3

/-- The segment extracted for a start coordinate equal to the line's first
vertex begins at the first vertex. -/
theorem extract_head (d : Point → Point → ℚ) (hd0 : ∀ p, d p p = 0)
    (hnn : ∀ p q, 0 ≤ d p q) (p : Point) (rest : List Point) (ec : Point) :
    (extractSegmentCoordinates d (p :: rest) p ec).head? = some p := by
  simp only [extractSegmentCoordinates]
  rw [findStartIndex_self d hd0 hnn p rest]
  simp only [Nat.zero_le, if_true, List.drop_zero, Nat.sub_zero]
  split_ifs with h
  · rw [List.take_succ_cons]
    rfl
  · rfl

/-- The segment extracted for an end coordinate whose value is the line's
last vertex ends at (the value of) the last vertex. -/
theorem extract_getLast (d : Point → Point → ℚ) (hd0 : ∀ p, d p p = 0)
    (hnn : ∀ p q, 0 ≤ d p q) (hsep : ∀ p q, d p q = 0 → p = q)
    (coords : List Point) (sc ec : Point) (hne : coords ≠ [])
    (hec : coords.getLast? = some ec) :
    (extractSegmentCoordinates d coords sc ec).getLast? = some ec := by
  have hslt : findStartIndex d coords sc < coords.length :=
    findStartIndex_lt_length d coords sc hne
  have hse : findStartIndex d coords sc
      ≤ findEndIndex d coords ec (findStartIndex d coords sc) :=
    findEndIndex_ge d coords ec _ hslt
  have helt : findEndIndex d coords ec (findStartIndex d coords sc) < coords.length :=
    findEndIndex_lt_length d coords ec _ hslt
  have hcoord : coords[findEndIndex d coords ec (findStartIndex d coords sc)]? = some ec :=
    findEndIndex_getLast d hd0 hnn hsep coords ec _ hslt hec
  simp only [extractSegmentCoordinates]
  set s := findStartIndex d coords sc with hsdef
  set e := findEndIndex d coords ec s with hedef
  have hrlast : ((coords.drop s).take (e - s + 1)).getLast? = some ec := by
    have hrlen : ((coords.drop s).take (e - s + 1)).length = e - s + 1 := by
      rw [List.length_take, List.length_drop]
      omega
    rw [List.getLast?_eq_getElem?, hrlen]
    simp only [Nat.add_sub_cancel]
    rw [List.getElem?_take, if_pos (by omega : e - s < e - s + 1), List.getElem?_drop]
    have hadd : s + (e - s) = e := by omega
    rw [hadd]
    exact hcoord
  rw [if_pos hse]
  split_ifs with h
  · exact hrlast
  · exact hec

/-! ### Arc length and point-at-distance -/

theorem lengthOf_nonneg (d : Point → Point → ℚ) (hnn : ∀ p q, 0 ≤ d p q) :
    ∀ l : List Point, 0 ≤ lengthOf d l
  | [] => le_refl 0
  | [_] => le_refl 0
  | p :: q :: rest => by
    rw [lengthOf]
    exact add_nonneg (hnn p q) (lengthOf_nonneg d hnn (q :: rest))

/-- A zero-length line consists of a single repeated value: its last vertex
equals its head. -/
theorem lengthOf_zero_getLast (d : Point → Point → ℚ) (hnn : ∀ p q, 0 ≤ d p q)
    (hsep : ∀ p q, d p q = 0 → p = q) :
    ∀ (rest : List Point) (p : Point), lengthOf d (p :: rest) = 0 →
      (p :: rest).getLast? = some p
  | [], p, _ => rfl
  | q :: rs, p, h => by
    rw [lengthOf] at h
    have h1 : 0 ≤ d p q := hnn p q
    have h2 : 0 ≤ lengthOf d (q :: rs) := lengthOf_nonneg d hnn (q :: rs)
    have hd : d p q = 0 := by linarith
    have hl : lengthOf d (q :: rs) = 0 := by linarith
    have hpq : p = q := hsep p q hd
    rw [List.getLast?_cons_cons]
    rw [lengthOf_zero_getLast d hnn hsep rs q hl, hpq]

theorem interp_one (p q : Point) : interp p q 1 = q := by
  unfold interp
  apply Prod.ext <;> simp

/-- Walking the whole arc length of a line ends at its last vertex. -/
theorem walkAlong_total (d : Point → Point → ℚ) (hnn : ∀ p q, 0 ≤ d p q)
    (hsep : ∀ p q, d p q = 0 → p = q) :
    ∀ (rest : List Point) (p : Point) (dist : ℚ), 0 < dist →
      dist = lengthOf d (p :: rest) →
      (p :: rest).getLast? = some (walkAlong d p rest dist)
  | [], p, dist, hpos, hdist => by
    rw [lengthOf] at hdist
    exact absurd (hdist ▸ hpos) (lt_irrefl 0)
  | q :: rs, p, dist, hpos, hdist => by
    rw [lengthOf] at hdist
    rw [walkAlong]
    by_cases hle : dist ≤ d p q
    · rw [if_pos hle]
      have hL : 0 ≤ lengthOf d (q :: rs) := lengthOf_nonneg d hnn (q :: rs)
      have hL0 : lengthOf d (q :: rs) = 0 := by linarith
      have hlast : (q :: rs).getLast? = some q :=
        lengthOf_zero_getLast d hnn hsep rs q hL0
      rw [List.getLast?_cons_cons, hlast]
      by_cases he : d p q = 0
      · rw [if_pos he]
      · rw [if_neg he]
        have hde : dist = d p q := by linarith
        rw [hde, div_self he, interp_one]
    · rw [if_neg hle]
      have hrec : dist - d p q = lengthOf d (q :: rs) := by linarith
      have hpos2 : 0 < dist - d p q := by
        have := hnn p q
        linarith [lt_of_not_le hle]
      rw [List.getLast?_cons_cons]
      exact walkAlong_total d hnn hsep rs q (dist - d p q) hpos2 hrec

theorem pointAtDistance_nonpos (d : Point → Point → ℚ) (p : Point)
    (rest : List Point) (dist : ℚ) (h : dist ≤ 0) :
    pointAtDistance d (p :: rest) dist = p := by
  simp [pointAtDistance, h]

/-- Evaluating `pointAtDistance` at the line's total length returns the value of its
last vertex. -/
theorem pointAtDistance_total (d : Point → Point → ℚ) (hnn : ∀ p q, 0 ≤ d p q)
    (hsep : ∀ p q, d p q = 0 → p = q) (coords : List Point) (hne : coords ≠ []) :
    coords.getLast? = some (pointAtDistance d coords (lengthOf d coords)) := by
  cases coords with
  | nil => exact absurd rfl hne
  | cons p rest =>
    by_cases h0 : lengthOf d (p :: rest) ≤ 0
    · have hz : lengthOf d (p :: rest) = 0 :=
        le_antisymm h0 (lengthOf_nonneg d hnn (p :: rest))
      rw [pointAtDistance_nonpos d p rest _ h0]
      exact lengthOf_zero_getLast d hnn hsep rest p hz
    · have hpos : 0 < lengthOf d (p :: rest) := lt_of_not_le h0
      simp only [pointAtDistance]
      rw [if_neg h0]
      exact walkAlong_total d hnn hsep rest p _ hpos rfl

/-! ### The equal-partition arithmetic -/

theorem numSegments_pos (total maxLen : ℚ) (h0 : 0 < maxLen) (h1 : maxLen < total) :
    1 ≤ numSegments total maxLen := by
  unfold numSegments
  have hpos : 0 < total / maxLen := div_pos (lt_trans h0 h1) h0
  have := Int.ceil_pos.mpr hpos
  omega

theorem numSegments_cast_pos (total maxLen : ℚ) (h0 : 0 < maxLen)
    (h1 : maxLen < total) : 0 < ((numSegments total maxLen : ℕ) : ℚ) := by
  have := numSegments_pos total maxLen h0 h1
  exact_mod_cast Nat.lt_of_lt_of_le Nat.zero_lt_one this

/-- The nominal per-piece length of the equal partition is at most
`maxSegmentLength`: `total / ceil(total / maxLen) ≤ maxLen`. -/
theorem segmentLength_le (total maxLen : ℚ) (h0 : 0 < maxLen) (h1 : maxLen < total) :
    segmentLength total maxLen ≤ maxLen := by
  unfold segmentLength
  have hn : 0 < ((numSegments total maxLen : ℕ) : ℚ) :=
    numSegments_cast_pos total maxLen h0 h1
  rw [div_le_iff₀ hn]
  have hceil : total / maxLen ≤ ((numSegments total maxLen : ℕ) : ℚ) := by
    unfold numSegments
    have hge : (0:ℤ) ≤ ⌈total / maxLen⌉ := by
      have hpos : 0 < total / maxLen := div_pos (lt_trans h0 h1) h0
      have := Int.ceil_pos.mpr hpos
      omega
    have hcast : ((⌈total / maxLen⌉.toNat : ℕ) : ℚ) = ((⌈total / maxLen⌉ : ℤ) : ℚ) := by
      exact_mod_cast congrArg (fun z : ℤ => (z : ℚ)) (Int.toNat_of_nonneg hge)
    rw [hcast]
    exact Int.le_ceil (total / maxLen)
  calc total = (total / maxLen) * maxLen := by field_simp
    _ ≤ ((numSegments total maxLen : ℕ) : ℚ) * maxLen := by
        exact mul_le_mul_of_nonneg_right hceil (le_of_lt h0)
    _ = maxLen * ((numSegments total maxLen : ℕ) : ℚ) := by ring

theorem startDistance_zero (total maxLen : ℚ) : startDistance total maxLen 0 = 0 := by
  simp [startDistance]

/-- The nominal span of every split piece is at most one `segmentLength`. -/
theorem endDistance_sub_startDistance_le (total maxLen : ℚ) (i : Nat) :
    endDistance total maxLen i - startDistance total maxLen i
      ≤ segmentLength total maxLen := by
  unfold endDistance startDistance
  have h1 : min (((i : ℚ) + 1) * segmentLength total maxLen) total
      ≤ ((i : ℚ) + 1) * segmentLength total maxLen := min_le_left _ _
  have h2 : ((i : ℚ) + 1) * segmentLength total maxLen
      - (i : ℚ) * segmentLength total maxLen = segmentLength total maxLen := by ring
  linarith

/-- The last split index reaches exactly the total length. -/
theorem endDistance_last (total maxLen : ℚ) (h0 : 0 < maxLen) (h1 : maxLen < total) :
    endDistance total maxLen (numSegments total maxLen - 1) = total := by
  unfold endDistance
  have hn1 : 1 ≤ numSegments total maxLen := numSegments_pos total maxLen h0 h1
  have hcast : ((numSegments total maxLen - 1 : ℕ) : ℚ) + 1
      = ((numSegments total maxLen : ℕ) : ℚ) := by
    have : ((numSegments total maxLen - 1 : ℕ) : ℚ)
        = ((numSegments total maxLen : ℕ) : ℚ) - 1 := by
      push_cast [Nat.cast_sub hn1]
      ring
    rw [this]; ring
  rw [hcast]
  unfold segmentLength
  have hn : ((numSegments total maxLen : ℕ) : ℚ) ≠ 0 :=
    ne_of_gt (numSegments_cast_pos total maxLen h0 h1)
  rw [mul_div_cancel₀ total hn]
  exact min_self total

/-! ### Properties of the simplifier -/

theorem argmaxDev_idx_lt (a b : Point) (l : List Point) (j : Nat) (m : ℚ)
    (h : argmaxDev a b l = some (j, m)) : j < l.length := by
  induction l generalizing j m with
  | nil => simp [argmaxDev] at h
  | cons p rest ih =>
    simp only [argmaxDev] at h
    cases hrest : argmaxDev a b rest with
    | none =>
      rw [hrest] at h
      simp only [Option.some.injEq, Prod.mk.injEq] at h
      obtain ⟨hj, -⟩ := h
      subst hj
      simp
    | some jm =>
      obtain ⟨j', m'⟩ := jm
      rw [hrest] at h
      by_cases hle : m' ≤ sqSegDist p a b
      · simp only [hle, if_true, Option.some.injEq, Prod.mk.injEq] at h
        obtain ⟨hj, -⟩ := h
        subst hj
        simp
      · simp only [hle, if_false, Option.some.injEq, Prod.mk.injEq] at h
        obtain ⟨hj, -⟩ := h
        subst hj
        have := ih j' m' hrest
        simp
        omega

/-- Unfolding lemma for `dpAux` at positive fuel when the interior is empty. -/
theorem dpAux_succ_none (tol : ℚ) (fuel : Nat) (a : Point) (mid : List Point)
    (b : Point) (hmx : argmaxDev a b mid = none) :
    dpAux tol (fuel + 1) a mid b = [a, b] := by
  rw [dpAux, hmx]

/-- Unfolding lemma for `dpAux` at positive fuel with a located maximum. -/
theorem dpAux_succ_some (tol : ℚ) (fuel : Nat) (a : Point) (mid : List Point)
    (b : Point) (k : Nat) (m : ℚ) (hmx : argmaxDev a b mid = some (k, m)) :
    dpAux tol (fuel + 1) a mid b =
      if m ≤ tol * tol then [a, b]
      else dpAux tol fuel a (mid.take k) ((mid[k]?).getD a)
        ++ (dpAux tol fuel ((mid[k]?).getD a) (mid.drop (k + 1)) b).tail := by
  rw [dpAux, hmx]

/-- Unfolding lemma for `simplify` on a line of at least two points. -/
theorem simplify_cons_eq (tol : ℚ) (a q : Point) (rs : List Point) (b : Point)
    (hlast : (q :: rs).getLast? = some b) :
    simplify tol (a :: q :: rs) = dpAux tol (q :: rs).length a (q :: rs).dropLast b := by
  simp only [simplify]
  rw [hlast]

/-- Shape lemma: `dpAux` always returns `a :: interior ++ [b]`: the endpoints survive every
level of the recursion. -/
theorem dpAux_shape (tol : ℚ) (fuel : Nat) :
    ∀ (a : Point) (mid : List Point) (b : Point),
      ∃ l : List Point, dpAux tol fuel a mid b = a :: l ++ [b] := by
  induction fuel with
  | zero => intro a mid b; exact ⟨[], rfl⟩
  | succ fuel ih =>
    intro a mid b
    cases hmx : argmaxDev a b mid with
    | none => exact ⟨[], by rw [dpAux_succ_none tol fuel a mid b hmx]; rfl⟩
    | some km =>
      obtain ⟨k, m⟩ := km
      rw [dpAux_succ_some tol fuel a mid b k m hmx]
      by_cases htol : m ≤ tol * tol
      · rw [if_pos htol]
        exact ⟨[], rfl⟩
      · rw [if_neg htol]
        obtain ⟨l1, h1⟩ := ih a (mid.take k) ((mid[k]?).getD a)
        obtain ⟨l2, h2⟩ := ih ((mid[k]?).getD a) (mid.drop (k + 1)) b
        refine ⟨l1 ++ (mid[k]?).getD a :: l2, ?_⟩
        rw [h1, h2]
        simp

theorem dpAux_length_le (tol : ℚ) (fuel : Nat) :
    ∀ (a : Point) (mid : List Point) (b : Point),
      (dpAux tol fuel a mid b).length ≤ mid.length + 2 := by
  induction fuel with
  | zero => intro a mid b; simp [dpAux]
  | succ fuel ih =>
    intro a mid b
    cases hmx : argmaxDev a b mid with
    | none =>
      rw [dpAux_succ_none tol fuel a mid b hmx]
      simp
    | some km =>
      obtain ⟨k, m⟩ := km
      rw [dpAux_succ_some tol fuel a mid b k m hmx]
      by_cases htol : m ≤ tol * tol
      · rw [if_pos htol]
        simp
      · rw [if_neg htol]
        have hk : k < mid.length := argmaxDev_idx_lt a b mid k m hmx
        have h1 := ih a (mid.take k) ((mid[k]?).getD a)
        have h2 := ih ((mid[k]?).getD a) (mid.drop (k + 1)) b
        obtain ⟨l2, hsh⟩ := dpAux_shape tol fuel ((mid[k]?).getD a) (mid.drop (k + 1)) b
        rw [List.length_append, List.length_take, List.length_drop] at *
        rw [hsh]
        rw [hsh] at h2
        simp only [List.length_cons, List.length_append, List.length_tail,
          List.length_cons] at *
        omega

theorem simplify_head? (tol : ℚ) (pts : List Point) (h2 : 2 ≤ pts.length) :
    (simplify tol pts).head? = pts.head? := by
  cases pts with
  | nil => simp at h2
  | cons a rest =>
    cases rest with
    | nil => simp at h2
    | cons q rs =>
      cases hlast : (q :: rs).getLast? with
      | none => simp at hlast
      | some b =>
        rw [simplify_cons_eq tol a q rs b hlast]
        obtain ⟨l, hl⟩ := dpAux_shape tol (q :: rs).length a (q :: rs).dropLast b
        rw [hl]
        rfl

theorem simplify_getLast? (tol : ℚ) (pts : List Point) (h2 : 2 ≤ pts.length) :
    (simplify tol pts).getLast? = pts.getLast? := by
  cases pts with
  | nil => simp at h2
  | cons a rest =>
    cases rest with
    | nil => simp at h2
    | cons q rs =>
      cases hlast : (q :: rs).getLast? with
      | none => simp at hlast
      | some b =>
        rw [simplify_cons_eq tol a q rs b hlast]
        obtain ⟨l, hl⟩ := dpAux_shape tol (q :: rs).length a (q :: rs).dropLast b
        rw [hl]
        rw [List.getLast?_cons_cons, hlast]
        rw [show a :: l ++ [b] = (a :: l) ++ [b] by simp]
        rw [List.getLast?_concat]

theorem simplify_length_le (tol : ℚ) (pts : List Point) :
    (simplify tol pts).length ≤ pts.length := by
  cases pts with
  | nil => simp [simplify]
  | cons a rest =>
    cases rest with
    | nil => simp [simplify]
    | cons q rs =>
      cases hlast : (q :: rs).getLast? with
      | none => simp at hlast
      | some b =>
        rw [simplify_cons_eq tol a q rs b hlast]
        have h := dpAux_length_le tol (q :: rs).length a (q :: rs).dropLast b
        have hdl : ((q :: rs).dropLast).length = (q :: rs).length - 1 := by
          simp [List.length_dropLast]
        rw [hdl] at h
        simp only [List.length_cons] at *
        omega

theorem two_le_simplify_length (tol : ℚ) (pts : List Point) (h2 : 2 ≤ pts.length) :
    2 ≤ (simplify tol pts).length := by
  cases pts with
  | nil => simp at h2
  | cons a rest =>
    cases rest with
    | nil => simp at h2
    | cons q rs =>
      cases hlast : (q :: rs).getLast? with
      | none => simp at hlast
      | some b =>
        rw [simplify_cons_eq tol a q rs b hlast]
        obtain ⟨l, hl⟩ := dpAux_shape tol (q :: rs).length a (q :: rs).dropLast b
        rw [hl]
        simp

/-! ### Concatenation helpers -/

theorem mem_of_getLast?_eq {α : Type} : ∀ {l : List α} {x : α},
    l.getLast? = some x → x ∈ l
  | [], x, h => by simp at h
  | [a], x, h => by
    simp only [List.getLast?_singleton, Option.some.injEq] at h
    subst h
    exact List.mem_singleton_self a
  | a :: b :: t, x, h => by
    rw [List.getLast?_cons_cons] at h
    exact List.mem_cons_of_mem a (mem_of_getLast?_eq h)

theorem flatten_ne_nil_of_mem {α : Type} {ls : List (List α)} {x : List α}
    (hx : x ∈ ls) (hxne : x ≠ []) : ls.flatten ≠ [] := by
  induction ls with
  | nil => simp at hx
  | cons y rest ih =>
    rw [List.flatten_cons]
    rcases List.mem_cons.mp hx with h | h
    · subst h
      simp [hxne]
    · intro hc
      rcases List.append_eq_nil.mp hc with ⟨-, h2⟩
      exact ih h h2

theorem flatten_head?_of_head? {α : Type} {ls : List (List α)} {x : List α}
    (h : ls.head? = some x) (hne : x ≠ []) : ls.flatten.head? = x.head? := by
  cases ls with
  | nil => simp at h
  | cons y rest =>
    simp only [List.head?_cons, Option.some.injEq] at h
    subst h
    rw [List.flatten_cons]
    cases y with
    | nil => exact absurd rfl hne
    | cons a t => simp

theorem flatten_getLast?_of_getLast? {α : Type} {ls : List (List α)} {x : List α}
    (h : ls.getLast? = some x) (hall : ∀ y ∈ ls, y ≠ []) :
    ls.flatten.getLast? = x.getLast? := by
  induction ls with
  | nil => simp at h
  | cons y rest ih =>
    cases rest with
    | nil =>
      simp only [List.getLast?_singleton, Option.some.injEq] at h
      subst h
      simp
    | cons z rs =>
      rw [List.getLast?_cons_cons] at h
      have hxmem : x ∈ z :: rs := mem_of_getLast?_eq h
      have hflat_ne : (z :: rs).flatten ≠ [] :=
        flatten_ne_nil_of_mem hxmem (hall x (List.mem_cons_of_mem y hxmem))
      rw [List.flatten_cons, List.getLast?_append_of_ne_nil _ hflat_ne]
      exact ih h (fun w hw => hall w (List.mem_cons_of_mem y hw))

theorem filterMap_eq_map_of_some {α β : Type} (f : α → Option β) (g : α → β)
    (l : List α) (h : ∀ a ∈ l, f a = some (g a)) : l.filterMap f = l.map g := by
  induction l with
  | nil => rfl
  | cons a rest ih =>
    rw [List.filterMap_cons, h a (List.mem_cons_self a rest), List.map_cons]
    rw [ih (fun a ha => h a (List.mem_cons_of_mem _ ha))]

/-! ### The split loop -/

/-- Because `extractSegmentCoordinates` never returns fewer than two points
on a line of at least two points, the guard of the split loop always passes:
the loop body is a total map over the split indices. -/
theorem splitLong_eq_map (d : Point → Point → ℚ) (cfg : SegmentationConfig)
    (coords : List Point) (total : ℚ) (h2 : 2 ≤ coords.length) :
    splitLong d cfg coords total
      = (List.range (numSegments total cfg.maxSegmentLength)).map
          (subSegment d cfg coords total) := by
  unfold splitLong
  apply filterMap_eq_map_of_some
  intro i hi
  have hge : 2 ≤ (subSegment d cfg coords total i).1.length :=
    extract_two_le d coords _ _ h2
  simp only [hge, if_true]

theorem splitLong_length (d : Point → Point → ℚ) (cfg : SegmentationConfig)
    (coords : List Point) (total : ℚ) (h2 : 2 ≤ coords.length) :
    (splitLong d cfg coords total).length
      = numSegments total cfg.maxSegmentLength := by
  rw [splitLong_eq_map d cfg coords total h2, List.length_map, List.length_range]

/-! ### Id assignment and the per-way counter -/

theorem assignIds_length (wayId : Int) : ∀ (c : Nat) (l : List (List Point × ℚ)),
    (assignIds wayId c l).length = l.length
  | _, [] => rfl
  | c, (coords, len) :: rest => by
    rw [assignIds]
    simp only [List.length_cons]
    rw [assignIds_length wayId (c + 1) rest]

theorem assignIds_getElem? (wayId : Int) :
    ∀ (c : Nat) (l : List (List Point × ℚ)) (j : Nat) (s : CoastlineSegment),
      (assignIds wayId c l)[j]? = some s →
        s.id = "segment_" ++ toString (c + j)
  | c, [], j, s => by simp [assignIds]
  | c, (coords, len) :: rest, 0, s => by
    rw [assignIds]
    simp only [List.getElem?_cons_zero, Option.some.injEq]
    intro h
    subst h
    rfl
  | c, (coords, len) :: rest, j + 1, s => by
    rw [assignIds]
    simp only [List.getElem?_cons_succ]
    intro h
    have := assignIds_getElem? wayId (c + 1) rest j s h
    rw [this]
    have : c + 1 + j = c + (j + 1) := by omega
    rw [this]

theorem assignIds_map_geometry (wayId : Int) :
    ∀ (c : Nat) (l : List (List Point × ℚ)),
      (assignIds wayId c l).map (fun s => s.geometry) = l.map Prod.fst
  | _, [] => rfl
  | c, (coords, len) :: rest => by
    rw [assignIds]
    simp only [List.map_cons]
    rw [assignIds_map_geometry wayId (c + 1) rest]

theorem processWay_counter (d : Point → Point → ℚ) (cfg : SegmentationConfig)
    (c : Nat) (f : OSMFeature) :
    (processWay d cfg c f).1 = c + (processWay d cfg c f).2.length := by
  unfold processWay
  cases hg : f.geometry with
  | none => rfl
  | some g =>
    cases g with
    | other => rfl
    | lineString coords =>
      by_cases h1 : lengthOf d (simplify cfg.simplificationTolerance coords)
          < cfg.minSegmentLength
      · simp [h1]
      · by_cases h2 : cfg.maxSegmentLength
            < lengthOf d (simplify cfg.simplificationTolerance coords)
        · simp only [h1, if_false, h2, if_true]
          rw [assignIds_length]
        · simp [h1, h2]

theorem processWay_id (d : Point → Point → ℚ) (cfg : SegmentationConfig)
    (c : Nat) (f : OSMFeature) (j : Nat) (s : CoastlineSegment)
    (h : (processWay d cfg c f).2[j]? = some s) :
    s.id = "segment_" ++ toString (c + j) := by
  unfold processWay at h
  cases hg : f.geometry with
  | none => rw [hg] at h; simp at h
  | some g =>
    cases g with
    | other => rw [hg] at h; simp at h
    | lineString coords =>
      rw [hg] at h
      by_cases h1 : lengthOf d (simplify cfg.simplificationTolerance coords)
          < cfg.minSegmentLength
      · simp only [h1, if_true] at h
        cases j with
        | zero =>
          simp only [List.getElem?_cons_zero, Option.some.injEq] at h
          subst h
          rfl
        | succ j => simp at h
      · by_cases h2 : cfg.maxSegmentLength
            < lengthOf d (simplify cfg.simplificationTolerance coords)
        · simp only [h1, if_false, h2, if_true] at h
          exact assignIds_getElem? f.propertiesId c _ j s h
        · simp only [h1, if_false, h2, if_false] at h
          cases j with
          | zero =>
            simp only [List.getElem?_cons_zero, Option.some.injEq] at h
            subst h
            rfl
          | succ j => simp at h

/-- Every segment accumulated by the per-feature loop starting at counter `c`
carries the sequential id `segment_(c + position)`. -/
theorem segmentsBeforeFilter_id (d : Point → Point → ℚ) (cfg : SegmentationConfig) :
    ∀ (fs : List OSMFeature) (c k : Nat) (s : CoastlineSegment),
      (segmentsBeforeFilter d cfg c fs)[k]? = some s →
        s.id = "segment_" ++ toString (c + k)
  | [], c, k, s => by simp [segmentsBeforeFilter]
  | f :: fs, c, k, s => by
    intro h
    rw [segmentsBeforeFilter] at h
    by_cases hk : k < (processWay d cfg c f).2.length
    · rw [List.getElem?_append_left hk] at h
      exact processWay_id d cfg c f k s h
    · rw [List.getElem?_append_right (by omega)] at h
      have hrec := segmentsBeforeFilter_id d cfg fs (processWay d cfg c f).1
        (k - (processWay d cfg c f).2.length) s h
      rw [hrec, processWay_counter d cfg c f]
      congr 1
      congr 1
      omega

/-! ### Concrete evaluation data

Kernel evaluation of the embedding needs the rational operations that
Batteries marks irreducible; re-mark them locally so `decide` can reduce. -/

attribute [local semireducible] Rat.add Rat.sub Rat.mul Rat.inv

/-- The source's `DEFAULT_CONFIG`: 1500 m max, 300 m min, 0.0001° tolerance. -/
def defaultConfig : SegmentationConfig := ⟨1500, 300, 1 / 10000⟩

/-- A two-vertex way measuring 5000 m under `flatDist` — the spec's "5000 m
way" scenario. -/
def exWay : List Point := [(0, 0), (5000, 0)]

/-- The 5000 m way wrapped as an input feature with way id 7. -/
def exFeature : OSMFeature := ⟨some (OSMGeometry.lineString exWay), 7⟩

/-- The segment record the run emits first for `exFeature`. -/
def exSegment : CoastlineSegment := ⟨"segment_0", exWay, 5000, 7⟩

/-! ### Claim theorems -/

/-- C1 counterexample: on the 5000 m two-vertex way (simplification is the
identity and the total length is 5000), the vertex sub-range selected at
split index 0 is degenerate — both nearest-vertex scans return index 0 — yet
the split loop emits four sub-segments (each the entire simplified line)
rather than exactly one fallback segment, so splitting is not aborted. -/
theorem splitLoop_continues_after_degenerate_cex :
    simplify defaultConfig.simplificationTolerance exWay = exWay ∧
    lengthOf flatDist exWay = 5000 ∧
    defaultConfig.maxSegmentLength < 5000 ∧
    findStartIndex flatDist exWay
      (pointAtDistance flatDist exWay (startDistance 5000 1500 0)) = 0 ∧
    findEndIndex flatDist exWay
      (pointAtDistance flatDist exWay (endDistance 5000 1500 0)) 0 = 0 ∧
    splitLong flatDist defaultConfig exWay 5000
      = [(exWay, 5000), (exWay, 5000), (exWay, 5000), (exWay, 5000)] := by
  decide

/-- C1 (amended): when the selected sub-range is degenerate (fewer than two
vertices), `extractSegmentCoordinates` returns the entire coordinate list as
that index's segment, and the split loop is **not** aborted: every split
index `i < numSegments` still produces its sub-segment. -/
theorem degenerate_extraction_falls_back_and_loop_continues
    (d : Point → Point → ℚ) (coords : List Point) (sc ec : Point)
    (h2 : 2 ≤ coords.length)
    (hdeg : findEndIndex d coords ec (findStartIndex d coords sc)
      - findStartIndex d coords sc + 1 < 2) :
    extractSegmentCoordinates d coords sc ec = coords ∧
    ∀ (cfg : SegmentationConfig) (total : ℚ),
      splitLong d cfg coords total
        = (List.range (numSegments total cfg.maxSegmentLength)).map
            (subSegment d cfg coords total) :=
  ⟨extract_degenerate d coords sc ec hdeg,
    fun cfg total => splitLong_eq_map d cfg coords total h2⟩

theorem degenerate_extraction_falls_back_and_loop_continues_witness :
    (2 ≤ exWay.length ∧
      findEndIndex flatDist exWay (1250, 0) (findStartIndex flatDist exWay (0, 0))
        - findStartIndex flatDist exWay (0, 0) + 1 < 2) ∧
    (extractSegmentCoordinates flatDist exWay (0, 0) (1250, 0) = exWay ∧
      ∀ (cfg : SegmentationConfig) (total : ℚ),
        splitLong flatDist cfg exWay total
          = (List.range (numSegments total cfg.maxSegmentLength)).map
              (subSegment flatDist cfg exWay total)) :=
  ⟨⟨by decide, by decide⟩,
    degenerate_extraction_falls_back_and_loop_continues flatDist exWay
      (0, 0) (1250, 0) (by decide) (by decide)⟩

/-- C2: `segmentCoastlines` is exactly the once-applied minimum-length filter
over the complete emitted list, and every returned segment measures at least
`minSegmentLength`. -/
theorem min_length_filter_global (d : Point → Point → ℚ)
    (features : List OSMFeature) (cfg : SegmentationConfig) :
    segmentCoastlines d features cfg
      = (segmentsBeforeFilter d cfg 0 features).filter
          (fun s => cfg.minSegmentLength ≤ s.lengthMeters) ∧
    ∀ (k : Nat) (s : CoastlineSegment),
      (segmentCoastlines d features cfg)[k]? = some s →
        cfg.minSegmentLength ≤ s.lengthMeters := by
  refine ⟨rfl, ?_⟩
  intro k s h
  have hmem : s ∈ segmentCoastlines d features cfg := List.getElem?_mem h
  unfold segmentCoastlines at hmem
  have := List.mem_filter.mp hmem
  simpa using this.2

theorem min_length_filter_global_witness :
    (segmentCoastlines flatDist [exFeature] defaultConfig)[0]? = some exSegment ∧
    defaultConfig.minSegmentLength ≤ exSegment.lengthMeters :=
  ⟨by decide,
    (min_length_filter_global flatDist [exFeature] defaultConfig).2 0 exSegment
      (by decide)⟩

/-- C3 counterexample: the 5000 m way is split (4 pieces expected), but the
sub-segment emitted at index 0 — not the last one — measures 5000 m, which
exceeds `maxSegmentLength` (1500 m) by 3500 m: no small vertex-snapping
tolerance covers the excess. -/
theorem length_bound_cex :
    defaultConfig.maxSegmentLength < lengthOf flatDist exWay ∧
    numSegments (lengthOf flatDist exWay) defaultConfig.maxSegmentLength = 4 ∧
    ((splitLong flatDist defaultConfig exWay (lengthOf flatDist exWay))[0]?).map
        Prod.snd = some 5000 ∧
    defaultConfig.maxSegmentLength + 2000 < 5000 := by
  decide

/-- C3 (amended): what the equal partition does bound is the **nominal**
arc-length span of every split piece: `endDistance i - startDistance i`
never exceeds `maxSegmentLength` (for any `i`, last piece included); the
measured length of the extracted sub-segment can exceed the bound without
limit because extraction snaps to vertices and falls back to the whole
line. -/
theorem nominal_span_le_max (total maxLen : ℚ) (h0 : 0 < maxLen)
    (h1 : maxLen < total) (i : Nat) :
    endDistance total maxLen i - startDistance total maxLen i ≤ maxLen :=
  le_trans (endDistance_sub_startDistance_le total maxLen i)
    (segmentLength_le total maxLen h0 h1)

theorem nominal_span_le_max_witness :
    ((0:ℚ) < 1500 ∧ (1500:ℚ) < 5000) ∧
    endDistance 5000 1500 0 - startDistance 5000 1500 0 ≤ 1500 :=
  ⟨⟨by decide, by decide⟩, nominal_span_le_max 5000 1500 (by decide) (by decide) 0⟩

/-- C4: for a split way, concatenating the emitted sub-segments in index
order yields a polyline starting at the simplified line's first vertex and
ending at (the value of) its last vertex. -/
theorem split_coverage_endpoints (d : Point → Point → ℚ)
    (hd0 : ∀ p, d p p = 0) (hnn : ∀ p q, 0 ≤ d p q)
    (hsep : ∀ p q, d p q = 0 → p = q) (cfg : SegmentationConfig)
    (coords : List Point) (h2 : 2 ≤ coords.length)
    (hmax : 0 < cfg.maxSegmentLength)
    (hlong : cfg.maxSegmentLength < lengthOf d coords) :
    ((splitLong d cfg coords (lengthOf d coords)).map Prod.fst).flatten.head?
        = coords.head? ∧
    ((splitLong d cfg coords (lengthOf d coords)).map Prod.fst).flatten.getLast?
        = coords.getLast? := by
  have hn1 : 1 ≤ numSegments (lengthOf d coords) cfg.maxSegmentLength :=
    numSegments_pos _ _ hmax hlong
  rw [splitLong_eq_map d cfg coords (lengthOf d coords) h2, List.map_map]
  set total := lengthOf d coords with htotal
  set n := numSegments total cfg.maxSegmentLength with hn
  set g := Prod.fst ∘ subSegment d cfg coords total with hg
  have hg_ne : ∀ i : Nat, g i ≠ [] := by
    intro i hc
    have := extract_two_le d coords
      (pointAtDistance d coords (startDistance total cfg.maxSegmentLength i))
      (pointAtDistance d coords (endDistance total cfg.maxSegmentLength i)) h2
    rw [hg] at hc
    simp only [Function.comp_apply, subSegment] at hc
    rw [hc] at this
    simp at this
  have hall : ∀ y ∈ (List.range n).map g, y ≠ [] := by
    intro y hy
    obtain ⟨i, -, rfl⟩ := List.mem_map.mp hy
    exact hg_ne i
  obtain ⟨p, rest, hco⟩ : ∃ p rest, coords = p :: rest := by
    cases coords with
    | nil => simp at h2
    | cons p rest => exact ⟨p, rest, rfl⟩
  constructor
  · -- head of the concatenation = first vertex
    have hrange : ((List.range n).map g).head? = some (g 0) := by
      cases hcase : n with
      | zero => omega
      | succ m =>
        rw [List.range_succ_eq_map]
        rfl
    rw [flatten_head?_of_head? hrange (hg_ne 0)]
    have hstart0 : g 0 = extractSegmentCoordinates d coords
        (pointAtDistance d coords 0)
        (pointAtDistance d coords (endDistance total cfg.maxSegmentLength 0)) := by
      rw [hg]
      simp only [Function.comp_apply, subSegment]
      rw [startDistance_zero]
    rw [hstart0, hco]
    rw [pointAtDistance_nonpos d p rest 0 (le_refl 0)]
    rw [extract_head d hd0 hnn p rest _]
    rfl
  · -- last of the concatenation = value of the last vertex
    have hlen : ((List.range n).map g).length = n := by
      rw [List.length_map, List.length_range]
    have hlast_map : ((List.range n).map g).getLast? = some (g (n - 1)) := by
      rw [List.getLast?_eq_getElem?, hlen, List.getElem?_map]
      rw [List.getElem?_range (by omega : n - 1 < n)]
      rfl
    rw [flatten_getLast?_of_getLast? hlast_map hall]
    have hec : coords.getLast? = some (pointAtDistance d coords total) := by
      rw [htotal]
      exact pointAtDistance_total d hnn hsep coords (by rw [hco]; simp)
    have hend : g (n - 1) = extractSegmentCoordinates d coords
        (pointAtDistance d coords (startDistance total cfg.maxSegmentLength (n - 1)))
        (pointAtDistance d coords total) := by
      rw [hg]
      simp only [Function.comp_apply, subSegment]
      rw [hn, htotal]
      rw [endDistance_last _ _ hmax hlong]
    rw [hend]
    rw [extract_getLast d hd0 hnn hsep coords _ _ (by rw [hco]; simp) hec]
    exact hec.symm

theorem split_coverage_endpoints_witness :
    (2 ≤ exWay.length ∧ 0 < defaultConfig.maxSegmentLength ∧
      defaultConfig.maxSegmentLength < lengthOf flatDist exWay) ∧
    (((splitLong flatDist defaultConfig exWay
        (lengthOf flatDist exWay)).map Prod.fst).flatten.head? = exWay.head? ∧
      ((splitLong flatDist defaultConfig exWay
        (lengthOf flatDist exWay)).map Prod.fst).flatten.getLast?
          = exWay.getLast?) :=
  ⟨⟨by decide, by decide, by decide⟩,
    split_coverage_endpoints flatDist flatDist_self flatDist_nonneg
      (fun _ _ h => flatDist_eq_zero h) defaultConfig exWay
      (by decide) (by decide) (by decide)⟩

/-- C5: before the final filter, the segment at position `k` of the
accumulated output carries the id `segment_k`: ids are assigned sequentially
at emission time, across all ways in traversal order and, within a split
way, in sub-segment order. -/
theorem sequential_id_assignment (d : Point → Point → ℚ)
    (cfg : SegmentationConfig) (features : List OSMFeature) (k : Nat)
    (s : CoastlineSegment)
    (h : (segmentsBeforeFilter d cfg 0 features)[k]? = some s) :
    s.id = "segment_" ++ toString k := by
  have := segmentsBeforeFilter_id d cfg features 0 k s h
  rwa [Nat.zero_add] at this

theorem sequential_id_assignment_witness :
    (segmentsBeforeFilter flatDist defaultConfig 0 [exFeature])[2]?
      = some (CoastlineSegment.mk "segment_2" exWay 5000 7) ∧
    (CoastlineSegment.mk "segment_2" exWay 5000 7).id = "segment_" ++ toString 2 :=
  ⟨by decide,
    sequential_id_assignment flatDist defaultConfig [exFeature] 2
      (CoastlineSegment.mk "segment_2" exWay 5000 7) (by decide)⟩

/-- C6: a long way is partitioned equally: `numSegments` is the ceiling of
`totalLength / maxSegmentLength`, split boundary `i` sits at
`i * (totalLength / numSegments)`, and the spec's instance holds: a 5000 m
way with a 1500 m maximum gives 4 segments of nominal length 1250 m. -/
theorem equal_partition_formula :
    (∀ total maxLen : ℚ, numSegments total maxLen = (⌈total / maxLen⌉).toNat) ∧
    (∀ (total maxLen : ℚ) (i : Nat),
      startDistance total maxLen i
        = (i : ℚ) * (total / ((numSegments total maxLen : ℕ) : ℚ))) ∧
    numSegments 5000 1500 = 4 ∧ segmentLength 5000 1500 = 1250 :=
  ⟨fun _ _ => rfl, fun _ _ _ => rfl, by decide, by decide⟩

/-- C7: the nearest-vertex lookup scanning from `s0` returns an index of the
list no smaller than `s0`, minimizing the distance to the target with ties
broken by the lowest index; and because the end lookup starts at the start
lookup's result, a located (start, end) pair always satisfies
`startIndex ≤ endIndex`. -/
theorem nearestVertexIndex_spec (d : Point → Point → ℚ) (coords : List Point)
    (t : Point) (s0 : Nat) (hs : s0 < coords.length) :
    s0 ≤ findEndIndex d coords t s0 ∧
    findEndIndex d coords t s0 < coords.length ∧
    (∃ pe, coords[findEndIndex d coords t s0]? = some pe ∧
      (∀ (k : Nat) (p : Point), s0 ≤ k → coords[k]? = some p → d t pe ≤ d t p) ∧
      (∀ (k : Nat) (p : Point), s0 ≤ k → k < findEndIndex d coords t s0 →
        coords[k]? = some p → d t pe < d t p)) ∧
    (∀ sc ec : Point,
      findStartIndex d coords sc
        ≤ findEndIndex d coords ec (findStartIndex d coords sc)) := by
  refine ⟨findEndIndex_ge d coords t s0 hs,
    findEndIndex_lt_length d coords t s0 hs,
    findEndIndex_min d coords t s0 hs, ?_⟩
  intro sc ec
  have hne : coords ≠ [] := by
    intro hc
    rw [hc] at hs
    simp at hs
  exact findEndIndex_ge d coords ec _ (findStartIndex_lt_length d coords sc hne)

theorem nearestVertexIndex_spec_witness :
    0 < exWay.length ∧
    (0 ≤ findEndIndex flatDist exWay (1250, 0) 0 ∧
      findEndIndex flatDist exWay (1250, 0) 0 < exWay.length ∧
      (∃ pe, exWay[findEndIndex flatDist exWay (1250, 0) 0]? = some pe ∧
        (∀ (k : Nat) (p : Point), 0 ≤ k → exWay[k]? = some p →
          flatDist (1250, 0) pe ≤ flatDist (1250, 0) p) ∧
        (∀ (k : Nat) (p : Point), 0 ≤ k →
          k < findEndIndex flatDist exWay (1250, 0) 0 →
          exWay[k]? = some p → flatDist (1250, 0) pe < flatDist (1250, 0) p)) ∧
      (∀ sc ec : Point,
        findStartIndex flatDist exWay sc
          ≤ findEndIndex flatDist exWay ec (findStartIndex flatDist exWay sc))) :=
  ⟨by decide, nearestVertexIndex_spec flatDist exWay (1250, 0) 0 (by decide)⟩

/-- C8: `simplify` preserves the first and last coordinates, never increases
the vertex count, and returns a valid polyline of at least two vertices on
every input of at least two vertices, for every non-negative tolerance. -/
theorem simplify_contract (tol : ℚ) (pts : List Point) (htol : 0 ≤ tol)
    (h2 : 2 ≤ pts.length) :
    (simplify tol pts).head? = pts.head? ∧
    (simplify tol pts).getLast? = pts.getLast? ∧
    (simplify tol pts).length ≤ pts.length ∧
    2 ≤ (simplify tol pts).length :=
  ⟨simplify_head? tol pts h2, simplify_getLast? tol pts h2,
    simplify_length_le tol pts, two_le_simplify_length tol pts h2⟩

theorem simplify_contract_witness :
    ((0:ℚ) ≤ defaultConfig.simplificationTolerance ∧ 2 ≤ exWay.length) ∧
    ((simplify defaultConfig.simplificationTolerance exWay).head? = exWay.head? ∧
      (simplify defaultConfig.simplificationTolerance exWay).getLast?
        = exWay.getLast? ∧
      (simplify defaultConfig.simplificationTolerance exWay).length
        ≤ exWay.length ∧
      2 ≤ (simplify defaultConfig.simplificationTolerance exWay).length) :=
  ⟨⟨by decide, by decide⟩,
    simplify_contract defaultConfig.simplificationTolerance exWay
      (by decide) (by decide)⟩

/-- C9: `segmentCoastlines` is deterministic — on equal inputs and equal
configurations the two runs return equal segment lists: same ids, same
coordinates, same measured lengths, same order. -/
theorem segmentCoastlines_deterministic (d : Point → Point → ℚ)
    (features1 features2 : List OSMFeature) (cfg1 cfg2 : SegmentationConfig)
    (hf : features1 = features2) (hc : cfg1 = cfg2) :
    segmentCoastlines d features1 cfg1 = segmentCoastlines d features2 cfg2 ∧
    (segmentCoastlines d features1 cfg1).map (fun s => s.id)
      = (segmentCoastlines d features2 cfg2).map (fun s => s.id) ∧
    (segmentCoastlines d features1 cfg1).map (fun s => s.geometry)
      = (segmentCoastlines d features2 cfg2).map (fun s => s.geometry) ∧
    (segmentCoastlines d features1 cfg1).map (fun s => s.lengthMeters)
      = (segmentCoastlines d features2 cfg2).map (fun s => s.lengthMeters) := by
  subst hf
  subst hc
  exact ⟨rfl, rfl, rfl, rfl⟩

theorem segmentCoastlines_deterministic_witness :
    ([exFeature] = [exFeature] ∧ defaultConfig = defaultConfig) ∧
    segmentCoastlines flatDist [exFeature] defaultConfig
      = segmentCoastlines flatDist [exFeature] defaultConfig :=
  ⟨⟨rfl, rfl⟩,
    (segmentCoastlines_deterministic flatDist [exFeature] [exFeature]
      defaultConfig defaultConfig rfl rfl).1⟩

/-- C10: on a line of at least two coordinates, `extractSegmentCoordinates`
always returns at least two coordinates, so the `≥ 2` guard of the split
loop never takes its false branch: a split way emits exactly `numSegments`
sub-segments before filtering. -/
theorem extract_valid_and_exact_split_count (d : Point → Point → ℚ)
    (coords : List Point) (sc ec : Point) (h2 : 2 ≤ coords.length) :
    2 ≤ (extractSegmentCoordinates d coords sc ec).length ∧
    ∀ (cfg : SegmentationConfig) (total : ℚ),
      (splitLong d cfg coords total).length
        = numSegments total cfg.maxSegmentLength :=
  ⟨extract_two_le d coords sc ec h2,
    fun cfg total => splitLong_length d cfg coords total h2⟩

theorem extract_valid_and_exact_split_count_witness :
    2 ≤ exWay.length ∧
    (2 ≤ (extractSegmentCoordinates flatDist exWay (0, 0) (1250, 0)).length ∧
      ∀ (cfg : SegmentationConfig) (total : ℚ),
        (splitLong flatDist cfg exWay total).length
          = numSegments total cfg.maxSegmentLength) :=
  ⟨by decide,
    extract_valid_and_exact_split_count flatDist exWay (0, 0) (1250, 0) (by decide)⟩

end Coast
